import Mathlib

/-!
Verification of the Filemanager backend's file-processing pipeline.

Shallow embedding of `src/backend/src/services/{pipeline,clean_text,ocr,
ingestion,text_extraction}.py`.  Python strings are modelled as `List Char`,
Python floats as `ℚ`, Python dicts as association lists in insertion order,
and each fallible service call (network, OCR engine, filesystem) as an
`Except` value supplied as a parameter, so that a pipeline run is a pure
function of the outcomes of the calls it makes.
-/

namespace Filemanager

abbrev Msg := String

/-! ## difflib.SequenceMatcher (stdlib dependency of CleanTextService)

`CleanTextService.detect_duplicates` calls
`SequenceMatcher(None, lines[i], lines[j]).ratio()`.  The embedding below
follows CPython's `difflib.py` with `isjunk=None` (so the junk set is empty
and the two junk-extension loops of `find_longest_match` are no-ops) and
`autojunk=True` (elements of `b` occurring more than `len(b)//100 + 1` times
are dropped from `b2j` when `len(b) >= 200`). -/

namespace PyDifflib

/-- Ascending list of the positions of `c` in `b`, as built by `__chain_b`. -/
def positions (b : List Char) (c : Char) : List ℕ :=
  (List.range b.length).filter (fun j => decide (b.getD j ' ' = c))

/-- `autojunk`: with `len(b) >= 200`, values occurring more than
`len(b) // 100 + 1` times are "popular" and removed from `b2j`. -/
def popularCut (b : List Char) (c : Char) : Bool :=
  decide (200 ≤ b.length) && decide (b.length / 100 + 1 < b.count c)

/-- `self.b2j[c]`, after the autojunk purge. -/
def b2j (b : List Char) (c : Char) : List ℕ :=
  if popularCut b c then [] else positions b c

/-- The running best match `(besti, bestj, bestsize)`. -/
structure FlmBest where
  besti : ℕ
  bestj : ℕ
  bestsize : ℕ
deriving DecidableEq, Repr

/-- One iteration of the inner `for j in b2j.get(a[i], nothing)` loop of
`find_longest_match`.  `j2len` is the map from the previous `i` iteration;
the accumulator carries `newj2len` (total function, absent keys map to 0)
and the running best.  The `continue`/`break` window tests on `j` become a
single range test, which is equivalent because the position list ascends. -/
def flmInner (j2len : ℕ → ℕ) (blo bhi : ℕ) (i : ℕ)
    (st : (ℕ → ℕ) × FlmBest) (j : ℕ) : (ℕ → ℕ) × FlmBest :=
  if blo ≤ j ∧ j < bhi then
    let k := (if j = 0 then 0 else j2len (j - 1)) + 1
    ((fun j' => if j' = j then k else st.1 j'),
      if st.2.bestsize < k then ⟨i + 1 - k, j + 1 - k, k⟩ else st.2)
  else st

/-- One iteration of the outer `for i in range(alo, ahi)` loop:
`newj2len` starts empty and replaces `j2len` afterwards. -/
def flmStep (a b : List Char) (blo bhi : ℕ)
    (st : (ℕ → ℕ) × FlmBest) (i : ℕ) : (ℕ → ℕ) × FlmBest :=
  (b2j b (a.getD i ' ')).foldl (flmInner st.1 blo bhi i) ((fun _ => 0), st.2)

/-- The dynamic-programming phase of `find_longest_match`. -/
def flmDP (a b : List Char) (alo ahi blo bhi : ℕ) : FlmBest :=
  ((List.range' alo (ahi - alo)).foldl (flmStep a b blo bhi)
    ((fun _ => 0), ⟨alo, blo, 0⟩)).2

/-- The first extension loop: grow the match leftwards while
`besti > alo and bestj > blo and a[besti-1] == b[bestj-1]`
(the junk test is vacuous: the junk set is empty for `isjunk=None`). -/
def extendL (a b : List Char) (alo blo : ℕ) : ℕ → ℕ → ℕ → ℕ × ℕ × ℕ
  | 0, j, k => (0, j, k)
  | i + 1, 0, k => (i + 1, 0, k)
  | i + 1, j + 1, k =>
    if alo ≤ i ∧ blo ≤ j ∧ a.getD i ' ' = b.getD j ' ' then
      extendL a b alo blo i j (k + 1)
    else (i + 1, j + 1, k)

/-- The second extension loop: grow the match rightwards while
`besti+bestsize < ahi and bestj+bestsize < bhi and a[besti+bestsize] ==
b[bestj+bestsize]`.  The fuel argument is `ahi - (besti + bestsize)`, which
is exactly the guard `besti + bestsize < ahi`: the loop runs while the fuel
is positive and the two remaining conjuncts hold. -/
def extendR (a b : List Char) (bhi : ℕ) (i j : ℕ) : ℕ → ℕ → ℕ
  | 0, k => k
  | fuel + 1, k =>
    if j + k < bhi ∧ a.getD (i + k) ' ' = b.getD (j + k) ' ' then
      extendR a b bhi i j fuel (k + 1)
    else k

/-- `SequenceMatcher.find_longest_match` on the window
`a[alo:ahi]`, `b[blo:bhi]`, for `isjunk=None`. -/
def findLongestMatch (a b : List Char) (alo ahi blo bhi : ℕ) : ℕ × ℕ × ℕ :=
  let st := flmDP a b alo ahi blo bhi
  let e := extendL a b alo blo st.besti st.bestj st.bestsize
  (e.1, e.2.1, extendR a b bhi e.1 e.2.1 (ahi - (e.1 + e.2.2)) e.2.2)

/-- Total size of the matching blocks of `get_matching_blocks` restricted to
a window: the recursive decomposition around each longest match.  Sorting
and merging adjacent blocks do not change the total size, so `ratio` only
needs this sum.  Each recursive call strictly shrinks
`(ahi - alo) + (bhi - blo)`, so fuel `ahi + bhi + 1` at the top call (full
windows, `alo = blo = 0`) is never exhausted. -/
def matchesSum (a b : List Char) : ℕ → ℕ → ℕ → ℕ → ℕ → ℕ
  | 0, _, _, _, _ => 0
  | fuel + 1, alo, ahi, blo, bhi =>
    let m := findLongestMatch a b alo ahi blo bhi
    if m.2.2 = 0 then 0
    else
      m.2.2 + (if alo < m.1 ∧ blo < m.2.1 then
          matchesSum a b fuel alo m.1 blo m.2.1 else 0)
        + (if m.1 + m.2.2 < ahi ∧ m.2.1 + m.2.2 < bhi then
          matchesSum a b fuel (m.1 + m.2.2) ahi (m.2.1 + m.2.2) bhi else 0)

/-- `SequenceMatcher(None, a, b).ratio()`: the exact rational `2*M / T`
(floats are modelled as exact rationals), and 1.0 when both sequences are
empty (`_calculate_ratio`). -/
def pyRatio (a b : List Char) : ℚ :=
  let m := matchesSum a b (a.length + b.length + 1) 0 a.length 0 b.length
  if a.length + b.length = 0 then 1
  else mkRat (2 * m) (a.length + b.length)

end PyDifflib

/-! ## CleanTextService (`clean_text.py`)

External dependencies are parameters: `ftfy.fix_text` (a total function —
the `fix_encoding` wrapper catches every exception and returns the input),
the NFKC normalization table beyond ASCII, and Unicode lower-casing beyond
ASCII (Python's `str.lower` may change string length, hence `List Char`
valued).  NFKC is the identity on pure-ASCII strings, and `str.lower` on an
ASCII character is plain ASCII lower-casing; only the non-ASCII behaviour
is left abstract. -/

/-- External text functions used by `CleanTextService`. -/
structure TextEnv where
  fixText : List Char → List Char
  nfkcExt : List Char → List Char
  lowerExt : Char → List Char

/-- The character class kept by `remove_noise`'s first substitution:
`[^\x20-\x7E\n\r\t]` is removed, i.e. printable ASCII plus
newline/carriage-return/tab is kept. -/
def keepChar (c : Char) : Bool :=
  (decide (0x20 ≤ c.toNat) && decide (c.toNat ≤ 0x7E)) ||
    c = '\n' || c = '\r' || c = '\t'

/-- Python's `\s` (and `str.strip`) restricted to the ASCII range:
space, tab, newline, carriage return, vertical tab, form feed.  This
predicate is used only inside `remove_noise`, after the character filter,
so non-ASCII whitespace never reaches it there (`pyIsSpace` below is the
full Unicode class, used where raw text is split into words). -/
def isWsA (c : Char) : Bool :=
  c = ' ' || c = '\t' || c = '\n' || c = '\r' ||
    c = Char.ofNat 0x0B || c = Char.ofNat 0x0C

/-- `re.sub(r"\s+", " ", text)`: collapse each maximal whitespace run to a
single space.  The flag records whether the previous character was part of
a whitespace run. -/
def collapseWS : Bool → List Char → List Char
  | _, [] => []
  | prevWs, c :: rest =>
    if isWsA c then
      (if prevWs then collapseWS true rest else ' ' :: collapseWS true rest)
    else c :: collapseWS false rest

/-- `str.strip()`: drop leading and trailing whitespace. -/
def pyStrip (l : List Char) : List Char :=
  ((l.dropWhile isWsA).reverse.dropWhile isWsA).reverse

/-- `CleanTextService.fix_encoding`: `ftfy.fix_text` with every exception
swallowed (returning the input), so a total function. -/
def fix_encoding (te : TextEnv) (text : List Char) : List Char :=
  te.fixText text

/-- `CleanTextService.remove_noise`. -/
def remove_noise (text : List Char) : List Char :=
  pyStrip (collapseWS false (text.filter keepChar))

/-- `unicodedata.normalize("NFKC", text)`: the identity on pure-ASCII
strings; behaviour on other strings is the abstract `nfkcExt`. -/
def pyNFKC (te : TextEnv) (l : List Char) : List Char :=
  if l.all (fun c => decide (c.toNat < 128)) then l else te.nfkcExt l

/-- One character of `str.lower()`: ASCII lower-casing below 128 (this is
`Char.toLower`), abstract beyond. -/
def pyLowerChar (te : TextEnv) (c : Char) : List Char :=
  if c.toNat < 128 then [c.toLower] else te.lowerExt c

/-- `str.lower()`. -/
def pyLower (te : TextEnv) (l : List Char) : List Char :=
  l.flatMap (pyLowerChar te)

/-- `CleanTextService.normalize_text`: NFKC, then lower-case. -/
def normalize_text (te : TextEnv) (text : List Char) : List Char :=
  pyLower te (pyNFKC te text)

/-- `CleanTextService.clean_text`: fix encoding, remove noise, normalize. -/
def clean_text (te : TextEnv) (text : List Char) : List Char :=
  normalize_text te (remove_noise (fix_encoding te text))

/-- The dictionary key `f"line_{i}-{j}"` (callers pass 1-based indices). -/
def lineLabel (i j : ℕ) : String :=
  "line_" ++ Nat.repr i ++ "-" ++ Nat.repr j

/-- `CleanTextService.detect_duplicates`.  The outer loop runs `i` over all
lines, the inner loop `j` over the later lines; a pair is recorded when its
ratio is strictly above `min_similarity`.  The labels of distinct pairs are
distinct, so the Python dict is the association list in insertion order. -/
def detect_duplicates (minSim : ℚ) (text : List Char) : List (String × ℚ) :=
  let lines := text.splitOn '\n'
  (List.range lines.length).foldl (fun acc i =>
    (List.range' (i + 1) (lines.length - (i + 1))).foldl (fun acc2 j =>
      if minSim < PyDifflib.pyRatio (lines.getD i []) (lines.getD j []) then
        acc2 ++ [(lineLabel (i + 1) (j + 1),
          PyDifflib.pyRatio (lines.getD i []) (lines.getD j []))]
      else acc2) acc) []

/-- `TextQualityScore` (Python floats as `ℚ`; `structure` is a Lean keyword,
so that field is called `struct`). -/
structure TextQualityScore where
  overall : ℚ
  encoding : ℚ
  noise : ℚ
  duplicates : ℚ
  struct : ℚ
deriving DecidableEq, Repr

/-- Python's Unicode whitespace test (CPython's `Py_UNICODE_ISSPACE`),
the separator class of the no-argument `str.split()`: the six ASCII
whitespace characters of `isWsA`, the file/group/record/unit separators
U+001C–U+001F, next line U+0085, no-break space U+00A0, Ogham space mark
U+1680, the spaces U+2000–U+200A, the line and paragraph separators
U+2028 and U+2029, narrow no-break space U+202F, medium mathematical
space U+205F, and ideographic space U+3000. -/
def pyIsSpace (c : Char) : Bool :=
  isWsA c ||
    (decide (0x1C ≤ c.toNat) && decide (c.toNat ≤ 0x1F)) ||
    decide (c.toNat = 0x85) || decide (c.toNat = 0xA0) ||
    decide (c.toNat = 0x1680) ||
    (decide (0x2000 ≤ c.toNat) && decide (c.toNat ≤ 0x200A)) ||
    decide (c.toNat = 0x2028) || decide (c.toNat = 0x2029) ||
    decide (c.toNat = 0x202F) || decide (c.toNat = 0x205F) ||
    decide (c.toNat = 0x3000)

/-- Word counter for `len(text.split())`: the number of maximal runs of
characters that are not Unicode whitespace. -/
def wordCountAux : Bool → List Char → ℕ
  | _, [] => 0
  | inWord, c :: rest =>
    if pyIsSpace c then wordCountAux false rest
    else (if inWord then 0 else 1) + wordCountAux true rest

def pyWordCount (l : List Char) : ℕ := wordCountAux false l

/-- `CleanTextService.assess_quality`. -/
def assess_quality (te : TextEnv) (minSim : ℚ) (text : List Char) :
    TextQualityScore :=
  if text.isEmpty then ⟨0, 0, 0, 0, 0⟩
  else
    let fixed := fix_encoding te text
    let encodingScore : ℚ :=
      1 - (((fixed.length : ℤ) - (text.length : ℤ)).natAbs : ℚ) /
        (max text.length 1 : ℕ)
    let noiseScore : ℚ := ((remove_noise text).length : ℕ) /
      ((max text.length 1 : ℕ) : ℚ)
    let dups := detect_duplicates minSim text
    let lineCount := (text.splitOn '\n').length
    let duplicateScore : ℚ := 1 - (dups.length : ℚ) / (max lineCount 1 : ℕ)
    let structureScore : ℚ :=
      min 1 ((pyWordCount text : ℚ) / (max lineCount 1 : ℕ) / 10)
    ⟨(encodingScore + noiseScore + duplicateScore + structureScore) / 4,
      encodingScore, noiseScore, duplicateScore, structureScore⟩

/-! ## OCRService (`ocr.py`)

`extract_text` dispatches on `use_mistral and self.mistral_api_key`
(Python truthiness: `None` and `""` are falsy) and otherwise runs
Tesseract; its `try/except` logs and re-raises, so it is the identity on
the outcome.  `_extract_with_mistral` raises `ValueError` when no key is
configured, and otherwise returns the remote JSON verbatim. -/

/-- Python truthiness of the optional `mistral_api_key`. -/
def keyTruthy : Option String → Bool
  | none => false
  | some s => !s.isEmpty

/-- A value returned by `OCRService.extract_text`: either the
Tesseract-shaped dict or the remote OCR endpoint's JSON verbatim. -/
inductive OcrResponse where
  | tesseract (text : List Char) (language : String)
  | mistralJson (payload : List (String × String))
deriving DecidableEq

/-- `OCRService._extract_with_tesseract`: decoding the image or running the
engine may fail (`outcome`); on success the dict
`{"text": …, "engine": "tesseract", "language": …, "confidence": None}`. -/
def extract_with_tesseract (outcome : Except Msg (List Char))
    (language : String) : Except Msg OcrResponse :=
  outcome.map (fun t => .tesseract t language)

/-- `OCRService._extract_with_mistral`: a hard `ValueError` without a
configured key, otherwise the posted request's outcome verbatim. -/
def extract_with_mistral (apiKey : Option String)
    (post : Except Msg (List (String × String))) : Except Msg OcrResponse :=
  if keyTruthy apiKey then post.map .mistralJson
  else .error "Mistral API key not configured"

/-- `OCRService.extract_text`. -/
def ocr_extract_text (apiKey : Option String) (useMistral : Bool)
    (language : String) (tess : Except Msg (List Char))
    (post : Except Msg (List (String × String))) : Except Msg OcrResponse :=
  if useMistral && keyTruthy apiKey then extract_with_mistral apiKey post
  else extract_with_tesseract tess language

/-! ## FileIngestionService (`ingestion.py`)

`_process_file` runs in the background: it reads the source bytes, then
attempts each requested backend inside its own `try/except` (storing, then
for S3/Drive a presigned URL), logging failures; finally the status becomes
`"completed"`.  Only an exception outside the per-backend handler — in this
code, the initial read — makes the status `"failed"`.  Each per-backend
store call is a parameter `store : StorageBackend → Except Msg String`
yielding the location string recorded on success (for local and S3 this
string is built from the config; for Drive it is the remote id). -/

inductive StorageBackend where
  | loc
  | google_drive
  | s3
deriving DecidableEq, Repr

/-- The mutable response fields that `_process_file` updates. -/
structure IngestState where
  storage_locations : List (StorageBackend × String)
  presigned_urls : List (StorageBackend × String)
deriving DecidableEq

/-- Python dict assignment `d[k] = v`: overwrite in place or append. -/
def dictSet (m : List (StorageBackend × String)) (k : StorageBackend)
    (v : String) : List (StorageBackend × String) :=
  if m.any (fun p => p.1 = k) then
    m.map (fun p => if p.1 = k then (k, v) else p)
  else m ++ [(k, v)]

/-- The body of the `for backend in request.storage_backends` loop: one
backend attempt with its internal `try/except`. -/
def backendStep (store presign : StorageBackend → Except Msg String)
    (st : IngestState) (b : StorageBackend) : IngestState :=
  match store b with
  | .error _ => st
  | .ok location =>
    ⟨dictSet st.storage_locations b location,
      if b = .s3 ∨ b = .google_drive then
        match presign b with
        | .error _ => st.presigned_urls
        | .ok url => dictSet st.presigned_urls b url
      else st.presigned_urls⟩

/-- `FileIngestionService._process_file`: returns the final status together
with the location/URL maps (the fields of `FileIngestionResponse` that the
background task mutates). -/
def ingest_process_file (read : Except Msg Unit)
    (backends : List StorageBackend)
    (store presign : StorageBackend → Except Msg String) :
    String × IngestState :=
  match read with
  | .error _ => ("failed", ⟨[], []⟩)
  | .ok _ => ("completed", backends.foldl (backendStep store presign) ⟨[], []⟩)

/-! ## FileProcessingPipeline (`pipeline.py`)

`process_file` is one `try/except` around the four stages; the `except`
records `str(e)` under `result.stage.value` and the result is returned in
all cases.  The fallible stage calls (ingestion request, Tika extraction,
OCR) are `Except` parameters; the cleaning stage is pure.  The returned
`ProcessOut` additionally records whether the OCR service was invoked, for
the call-count properties. -/

inductive ProcessingStage where
  | ingestion
  | text_extraction
  | ocr
  | cleaning
  | completed
deriving DecidableEq, Repr

/-- `ProcessingStage.value` (the string enum values). -/
def ProcessingStage.value : ProcessingStage → String
  | .ingestion => "ingestion"
  | .text_extraction => "text_extraction"
  | .ocr => "ocr"
  | .cleaning => "cleaning"
  | .completed => "completed"

/-- Metadata values: the pipeline stores extraction/OCR metadata values
(opaque here) and one `TextQualityScore` dict under `"text_quality"`. -/
inductive MVal where
  | raw (s : String)
  | quality (q : TextQualityScore)
deriving DecidableEq

abbrev MDict := List (String × MVal)

/-- Python dict assignment `d[k] = v` on a metadata dict. -/
def mdSet (m : MDict) (k : String) (v : MVal) : MDict :=
  if m.any (fun p => p.1 = k) then
    m.map (fun p => if p.1 = k then (k, v) else p)
  else m ++ [(k, v)]

/-- Python `d.update(other)`: assign every key of `other` in order. -/
def mdUpdate (m other : MDict) : MDict :=
  other.foldl (fun acc p => mdSet acc p.1 p.2) m

def mdKeys (m : MDict) : List String := m.map Prod.fst

/-- `FileProcessingResult`. -/
structure FileProcessingResult where
  file_id : String
  stage : ProcessingStage
  content : Option (List Char)
  metadata : MDict
  errors : List (String × Msg)
deriving DecidableEq

/-- What `TextExtractionService.extract_text` returned: the pipeline reads
`extracted.get("content", "")` and `extracted.get("metadata", {})`, so both
keys are modelled as optional with those defaults. -/
structure ExtractOut where
  content : Option (List Char)
  metadata : Option MDict
deriving DecidableEq

/-- What `OCRService.extract_text` returned, as read by the pipeline:
`ocr_result.get("text", "")` and `ocr_result.get("metadata", {})`. -/
structure OcrOut where
  text : Option (List Char)
  metadata : Option MDict
deriving DecidableEq

/-- Outcomes of the fallible stage calls of one `process_file` run. -/
structure StageEnv where
  ingestion : Except Msg Unit
  extraction : Except Msg ExtractOut
  ocr : Except Msg OcrOut

/-- A returned result plus the OCR-invocation count observation. -/
structure ProcessOut where
  result : FileProcessingResult
  ocrCalled : Bool

/-- Python truthiness of `result.content` (`None` and `""` are falsy). -/
def contentEmpty : Option (List Char) → Bool
  | none => true
  | some l => l.isEmpty

/-- Stage 4 (cleaning) and completion, shared by the OCR/no-OCR paths:
`if result.content:` clean it and attach the quality dict, then advance to
`completed`.  The cleaning stage is pure and cannot raise. -/
def finishCleaning (te : TextEnv) (minSim : ℚ) (r : FileProcessingResult)
    (ocrCalled : Bool) : ProcessOut :=
  let r1 := { r with stage := ProcessingStage.cleaning }
  let r2 :=
    if contentEmpty r1.content then r1
    else
      let c := clean_text te (r1.content.getD [])
      let q := assess_quality te minSim c
      { r1 with
        content := some c
        metadata := mdSet r1.metadata "text_quality" (.quality q) }
  ⟨{ r2 with stage := ProcessingStage.completed }, ocrCalled⟩

/-- `FileProcessingPipeline.process_file`.  `fileId` abstracts
`str(hash(file_data))`. -/
def process_file (te : TextEnv) (minSim : ℚ) (fileId : String)
    (env : StageEnv) : ProcessOut :=
  let r0 : FileProcessingResult :=
    ⟨fileId, ProcessingStage.ingestion, none, [], []⟩
  match env.ingestion with
  | .error e =>
    ⟨{ r0 with errors := [(ProcessingStage.ingestion.value, e)] }, false⟩
  | .ok _ =>
    let r1 := { r0 with stage := ProcessingStage.text_extraction }
    match env.extraction with
    | .error e =>
      ⟨{ r1 with errors := [(ProcessingStage.text_extraction.value, e)] },
        false⟩
    | .ok x =>
      let r2 := { r1 with
        metadata := mdUpdate r1.metadata (x.metadata.getD [])
        content := some (x.content.getD [])
        stage := ProcessingStage.ocr }
      if contentEmpty r2.content then
        match env.ocr with
        | .error e =>
          ⟨{ r2 with errors := [(ProcessingStage.ocr.value, e)] }, true⟩
        | .ok y =>
          let r3 := { r2 with
            content := some (y.text.getD [])
            metadata := mdUpdate r2.metadata (y.metadata.getD []) }
          finishCleaning te minSim r3 true
      else finishCleaning te minSim r2 false

/-! ## Helper lemmas on the metadata dict -/

theorem mdKeys_mdSet_sub (m : MDict) (k : String) (v : MVal) :
    ∀ k', k' ∈ mdKeys m → k' ∈ mdKeys (mdSet m k v) := by
  intro k' hk
  unfold mdSet
  split
  · rcases List.mem_map.1 hk with ⟨p, hp, rfl⟩
    refine List.mem_map.2 ⟨if p.1 = k then (k, v) else p, List.mem_map_of_mem _ hp, ?_⟩
    split
    · simp_all
    · rfl
  · exact List.mem_map.2 (by
      rcases List.mem_map.1 hk with ⟨p, hp, rfl⟩
      exact ⟨p, List.mem_append_left _ hp, rfl⟩)

theorem mdKeys_mdUpdate_sub (d : MDict) : ∀ (m : MDict) (k' : String),
    k' ∈ mdKeys m → k' ∈ mdKeys (mdUpdate m d) := by
  induction d with
  | nil => intro m k' h; simpa [mdUpdate] using h
  | cons p d ih =>
    intro m k' h
    have h1 := mdKeys_mdSet_sub m p.1 p.2 k' h
    simpa [mdUpdate] using ih (mdSet m p.1 p.2) k' h1

/-! ## Pipeline theorems -/

/-- The metadata just after the extraction merge (line 60 of
`pipeline.py`), starting from the empty dict the result was created with. -/
def metaAfterExtraction (x : ExtractOut) : MDict :=
  mdUpdate [] (x.metadata.getD [])

/-- The metadata just after the OCR merge (line 68 of `pipeline.py`). -/
def metaAfterOcr (x : ExtractOut) (y : OcrOut) : MDict :=
  mdUpdate (metaAfterExtraction x) (y.metadata.getD [])

/-- C1: `process_file` never raises — it is a total function into
`ProcessOut` — and when a stage's call fails, the later stages are skipped,
the message is recorded in `errors` under the active stage's name, and the
result is returned at the stage it had reached. -/
theorem c1_pipeline_recovers_and_reports (te : TextEnv) (minSim : ℚ)
    (fid : String) (env : StageEnv) :
    (∀ e, env.ingestion = .error e →
      (process_file te minSim fid env).result.stage =
          ProcessingStage.ingestion ∧
        (process_file te minSim fid env).result.errors = [("ingestion", e)] ∧
        (process_file te minSim fid env).ocrCalled = false ∧
        (process_file te minSim fid env).result.content = none ∧
        (process_file te minSim fid env).result.metadata = []) ∧
    (∀ e, env.ingestion = .ok () → env.extraction = .error e →
      (process_file te minSim fid env).result.stage =
          ProcessingStage.text_extraction ∧
        (process_file te minSim fid env).result.errors =
          [("text_extraction", e)] ∧
        (process_file te minSim fid env).ocrCalled = false ∧
        (process_file te minSim fid env).result.content = none ∧
        (process_file te minSim fid env).result.metadata = []) ∧
    (∀ e x, env.ingestion = .ok () → env.extraction = .ok x →
      x.content.getD [] = [] → env.ocr = .error e →
      (process_file te minSim fid env).result.stage = ProcessingStage.ocr ∧
        (process_file te minSim fid env).result.errors = [("ocr", e)]) := by
  obtain ⟨ing, ext, ocr⟩ := env
  refine ⟨?_, ?_, ?_⟩
  · rintro e rfl
    simp [process_file, ProcessingStage.value]
  · rintro e rfl rfl
    simp [process_file, ProcessingStage.value]
  · rintro e x rfl rfl hempty rfl
    simp [process_file, ProcessingStage.value, contentEmpty, hempty]

/-- C1 witness: a run whose extraction call fails. -/
theorem c1_pipeline_recovers_and_reports_witness :
    (process_file ⟨fun l => l, fun l => l, fun c => [c]⟩ (mkRat 9 10) "f"
        ⟨.ok (), .error "tika down", .ok ⟨some [], none⟩⟩).result.errors =
      [("text_extraction", "tika down")] :=
  ((c1_pipeline_recovers_and_reports _ _ _ _).2.1 "tika down" rfl rfl).2.1

/-- C10: every returned result has at most one error entry, and the errors
map is empty exactly when the result reached `completed`. -/
theorem c10_errors_iff_not_completed (te : TextEnv) (minSim : ℚ)
    (fid : String) (env : StageEnv) :
    (process_file te minSim fid env).result.errors.length ≤ 1 ∧
      ((process_file te minSim fid env).result.errors = [] ↔
        (process_file te minSim fid env).result.stage =
          ProcessingStage.completed) := by
  obtain ⟨ing, ext, ocr⟩ := env
  cases ing with
  | error e => simp [process_file]
  | ok u =>
    cases ext with
    | error e => simp [process_file]
    | ok x =>
      cases hx : contentEmpty (some (x.content.getD [])) with
      | false => simp [process_file, hx, finishCleaning]
      | true =>
        cases ocr with
        | error e => simp [process_file, hx]
        | ok y =>
          cases hy : contentEmpty (some (y.text.getD [])) with
          | true => simp [process_file, hx, finishCleaning, hy]
          | false => simp [process_file, hx, finishCleaning, hy]

/-- C3: the OCR stage is invoked iff ingestion and extraction completed and
the extracted content was empty; and a run whose extraction yields
non-empty text and whose calls all succeed completes with no errors and no
OCR call. -/
theorem c3_ocr_iff_empty_extraction (te : TextEnv) (minSim : ℚ)
    (fid : String) (env : StageEnv) :
    ((process_file te minSim fid env).ocrCalled = true ↔
      env.ingestion = .ok () ∧
        ∃ x, env.extraction = .ok x ∧ x.content.getD [] = []) ∧
    (∀ x, env.ingestion = .ok () → env.extraction = .ok x →
      x.content.getD [] ≠ [] →
      (process_file te minSim fid env).ocrCalled = false ∧
        (process_file te minSim fid env).result.errors = [] ∧
        (process_file te minSim fid env).result.stage =
          ProcessingStage.completed) := by
  obtain ⟨ing, ext, ocr⟩ := env
  constructor
  · cases ing with
    | error e => simp [process_file]
    | ok u =>
      cases ext with
      | error e => simp [process_file]
      | ok x =>
        cases hl : x.content.getD [] with
        | nil =>
          cases ocr with
          | error e => simp [process_file, contentEmpty, hl]
          | ok y => simp [process_file, contentEmpty, hl, finishCleaning]
        | cons c cs =>
          cases ocr with
          | error e => simp [process_file, contentEmpty, hl, finishCleaning]
          | ok y => simp [process_file, contentEmpty, hl, finishCleaning]
  · rintro x rfl rfl hne
    cases hl : x.content.getD [] with
    | nil => exact absurd hl hne
    | cons c cs => simp [process_file, contentEmpty, hl, finishCleaning]

/-- C3 witness: a run with non-empty extracted text completes without
invoking OCR. -/
theorem c3_ocr_iff_empty_extraction_witness :
    (process_file ⟨fun l => l, fun l => l, fun c => [c]⟩ (mkRat 9 10) "f"
        ⟨.ok (), .ok ⟨some ['h', 'i'], none⟩,
          .error "never called"⟩).ocrCalled = false ∧
      (process_file ⟨fun l => l, fun l => l, fun c => [c]⟩ (mkRat 9 10) "f"
          ⟨.ok (), .ok ⟨some ['h', 'i'], none⟩,
            .error "never called"⟩).result.stage =
        ProcessingStage.completed := by
  have h := (c3_ocr_iff_empty_extraction ⟨fun l => l, fun l => l, fun c => [c]⟩
    (mkRat 9 10) "f" ⟨.ok (), .ok ⟨some ['h', 'i'], none⟩,
      .error "never called"⟩).2 ⟨some ['h', 'i'], none⟩ rfl rfl (by decide)
  exact ⟨h.1, h.2.2⟩

/-- C8: metadata accumulates additively — every key present after the
extraction merge, and every key present after the OCR merge, is still
present in the returned result's metadata. -/
theorem c8_metadata_additive (te : TextEnv) (minSim : ℚ) (fid : String)
    (env : StageEnv) (k : String) :
    (∀ x, env.ingestion = .ok () → env.extraction = .ok x →
      k ∈ mdKeys (metaAfterExtraction x) →
      k ∈ mdKeys (process_file te minSim fid env).result.metadata) ∧
    (∀ x y, env.ingestion = .ok () → env.extraction = .ok x →
      x.content.getD [] = [] → env.ocr = .ok y →
      k ∈ mdKeys (metaAfterOcr x y) →
      k ∈ mdKeys (process_file te minSim fid env).result.metadata) := by
  obtain ⟨ing, ext, ocr⟩ := env
  constructor
  · rintro x rfl rfl hk
    cases hx : contentEmpty (some (x.content.getD [])) with
    | false =>
      simp only [process_file, hx, finishCleaning, Bool.false_eq_true,
        if_false]
      show k ∈ mdKeys (mdSet (metaAfterExtraction x) "text_quality" _)
      exact mdKeys_mdSet_sub _ _ _ _ hk
    | true =>
      cases ocr with
      | error e =>
        simp only [process_file, hx, if_true]
        exact hk
      | ok y =>
        have h1 : k ∈ mdKeys (metaAfterOcr x y) :=
          mdKeys_mdUpdate_sub _ _ _ hk
        simp only [process_file, hx, if_true, finishCleaning]
        cases hy : contentEmpty (some (y.text.getD [])) with
        | true =>
          simp only [hy, if_true]
          exact h1
        | false =>
          simp only [hy, Bool.false_eq_true, if_false]
          show k ∈ mdKeys (mdSet (metaAfterOcr x y) "text_quality" _)
          exact mdKeys_mdSet_sub _ _ _ _ h1
  · rintro x y rfl rfl hempty rfl hk
    have hx : contentEmpty (some (x.content.getD [])) = true := by
      simp [contentEmpty, hempty]
    simp only [process_file, hx, if_true, finishCleaning]
    cases hy : contentEmpty (some (y.text.getD [])) with
    | true =>
      simp only [hy, if_true]
      exact hk
    | false =>
      simp only [hy, Bool.false_eq_true, if_false]
      show k ∈ mdKeys (mdSet (metaAfterOcr x y) "text_quality" _)
      exact mdKeys_mdSet_sub _ _ _ _ hk

/-- C8 witness: an extraction-metadata key survives to the returned
result. -/
theorem c8_metadata_additive_witness :
    "author" ∈ mdKeys (process_file ⟨fun l => l, fun l => l, fun c => [c]⟩
      (mkRat 9 10) "f"
      ⟨.ok (), .ok ⟨some [], some [("author", MVal.raw "x")]⟩,
        .ok ⟨some [], none⟩⟩).result.metadata :=
  (c8_metadata_additive ⟨fun l => l, fun l => l, fun c => [c]⟩ (mkRat 9 10)
    "f" ⟨.ok (), .ok ⟨some [], some [("author", MVal.raw "x")]⟩,
      .ok ⟨some [], none⟩⟩ "author").1
    ⟨some [], some [("author", MVal.raw "x")]⟩ rfl rfl (by decide)

/-- C9 counterexample: a run in which extraction and OCR both return empty
text.  The claim says `content` should then be absent (`None`); the code
stores the empty string, so `content` is present. -/
theorem c9_counterexample :
    ¬ (process_file ⟨fun l => l, fun l => l, fun c => [c]⟩ (mkRat 9 10) "f"
        ⟨.ok (), .ok ⟨some [], none⟩, .ok ⟨some [], none⟩⟩).result.content =
      none := by decide

/-- C9 (amended): when no stage produced text, `content` is the *empty
string*, not `None`; `content` is `None` exactly when processing failed
before the extraction stage stored it. -/
theorem c9_empty_content_is_empty_string (te : TextEnv) (minSim : ℚ)
    (fid : String) (env : StageEnv) :
    (∀ x y, env.ingestion = .ok () → env.extraction = .ok x →
      x.content.getD [] = [] → env.ocr = .ok y → y.text.getD [] = [] →
      (process_file te minSim fid env).result.content = some []) ∧
    ((process_file te minSim fid env).result.content = none ↔
      (∃ e, env.ingestion = .error e) ∨
        (env.ingestion = .ok () ∧ ∃ e, env.extraction = .error e)) := by
  obtain ⟨ing, ext, ocr⟩ := env
  constructor
  · rintro x y rfl rfl hx rfl hy
    simp [process_file, finishCleaning, contentEmpty, hx, hy]
  · cases ing with
    | error e => simp [process_file]
    | ok u =>
      cases ext with
      | error e => simp [process_file]
      | ok x =>
        cases hx : contentEmpty (some (x.content.getD [])) with
        | false => simp [process_file, hx, finishCleaning]
        | true =>
          cases ocr with
          | error e => simp [process_file, hx]
          | ok y =>
            cases hy : contentEmpty (some (y.text.getD [])) with
            | true => simp [process_file, hx, finishCleaning, hy]
            | false => simp [process_file, hx, finishCleaning, hy]

/-- C9 (amended) witness: the all-empty run returns `some ""`. -/
theorem c9_empty_content_is_empty_string_witness :
    (process_file ⟨fun l => l, fun l => l, fun c => [c]⟩ (mkRat 9 10) "f"
        ⟨.ok (), .ok ⟨some [], none⟩, .ok ⟨some [], none⟩⟩).result.content =
      some [] :=
  (c9_empty_content_is_empty_string ⟨fun l => l, fun l => l, fun c => [c]⟩
    (mkRat 9 10) "f" ⟨.ok (), .ok ⟨some [], none⟩, .ok ⟨some [], none⟩⟩).1
    ⟨some [], none⟩ ⟨some [], none⟩ rfl rfl rfl rfl rfl

/-! ## OCR theorems -/

/-- C2 counterexample: `extract_text(img, use_mistral=True)` with no
configured Mistral key does *not* raise a configuration error — it silently
runs the local Tesseract engine and returns its result. -/
theorem c2_counterexample :
    ocr_extract_text none true "eng" (.ok ['h']) (.ok []) =
        .ok (.tesseract ['h'] "eng") ∧
      ∀ e, ocr_extract_text none true "eng" (.ok ['h']) (.ok []) ≠
        .error e := by
  have h : ocr_extract_text none true "eng" (.ok ['h']) (.ok []) =
      .ok (.tesseract ['h'] "eng") := rfl
  exact ⟨h, fun e he => by rw [h] at he; cases he⟩

/-- C2 (amended): when `use_mistral=True` is requested but no key is
configured (Python-falsy), `extract_text` silently takes the local
Tesseract path; the configuration `ValueError` arises only when
`_extract_with_mistral` itself is invoked without a configured key. -/
theorem c2_no_key_silent_local_fallback (apiKey : Option String)
    (lang : String) (tess : Except Msg (List Char))
    (post : Except Msg (List (String × String)))
    (hk : keyTruthy apiKey = false) :
    ocr_extract_text apiKey true lang tess post =
        extract_with_tesseract tess lang ∧
      extract_with_mistral apiKey post =
        .error "Mistral API key not configured" := by
  constructor
  · simp [ocr_extract_text, hk]
  · simp [extract_with_mistral, hk]

/-- C2 (amended) witness. -/
theorem c2_no_key_silent_local_fallback_witness :
    ocr_extract_text none true "eng" (.ok ['h']) (.ok []) =
        extract_with_tesseract (.ok ['h']) "eng" ∧
      extract_with_mistral none (.ok []) =
        .error "Mistral API key not configured" :=
  c2_no_key_silent_local_fallback none "eng" (.ok ['h']) (.ok [])
    (by decide)

/-! ## Ingestion theorems -/

/-- A key set by `dictSet` is present. -/
theorem dictSet_present (m : List (StorageBackend × String))
    (b : StorageBackend) (v : String) :
    ((dictSet m b v).any fun p => p.1 = b) = true := by
  unfold dictSet
  split
  · rename_i h
    rcases List.any_eq_true.1 h with ⟨p, hp, hpb⟩
    refine List.any_eq_true.2 ⟨if p.1 = b then (b, v) else p,
      List.mem_map_of_mem _ hp, ?_⟩
    simp only [decide_eq_true_eq] at hpb
    simp [hpb]
  · exact List.any_eq_true.2 ⟨(b, v), List.mem_append_right _ (by simp),
      by simp⟩

/-- `dictSet` never removes a present key. -/
theorem dictSet_present_mono (m : List (StorageBackend × String))
    (b c : StorageBackend) (v : String)
    (h : (m.any fun p => p.1 = c) = true) :
    ((dictSet m b v).any fun p => p.1 = c) = true := by
  unfold dictSet
  rcases List.any_eq_true.1 h with ⟨p, hp, hpc⟩
  simp only [decide_eq_true_eq] at hpc
  split
  · refine List.any_eq_true.2 ⟨if p.1 = b then (b, v) else p,
      List.mem_map_of_mem _ hp, ?_⟩
    split
    · rename_i hpb; simp [← hpb, hpc]
    · simp [hpc]
  · exact List.any_eq_true.2 ⟨p, List.mem_append_left _ hp, by simp [hpc]⟩

/-- One loop iteration never removes a recorded storage location. -/
theorem backendStep_locations_mono
    (store presign : StorageBackend → Except Msg String) (st : IngestState)
    (b c : StorageBackend)
    (h : (st.storage_locations.any fun p => p.1 = c) = true) :
    ((backendStep store presign st b).storage_locations.any
      fun p => p.1 = c) = true := by
  unfold backendStep
  cases store b with
  | error e => exact h
  | ok location =>
    exact dictSet_present_mono st.storage_locations b c location h

/-- The whole loop never removes a recorded storage location. -/
theorem ingestLoop_locations_mono
    (store presign : StorageBackend → Except Msg String) :
    ∀ (L : List StorageBackend) (st : IngestState) (c : StorageBackend),
      (st.storage_locations.any fun p => p.1 = c) = true →
      ((L.foldl (backendStep store presign) st).storage_locations.any
        fun p => p.1 = c) = true := by
  intro L
  induction L with
  | nil => intro st c h; exact h
  | cons b L ih =>
    intro st c h
    exact ih _ c (backendStep_locations_mono store presign st b c h)

/-- After the loop, every backend whose store call succeeded has a
recorded storage location. -/
theorem ingestLoop_locations_of_ok
    (store presign : StorageBackend → Except Msg String) :
    ∀ (L : List StorageBackend) (st : IngestState) (b : StorageBackend),
      b ∈ L → (∃ l, store b = .ok l) →
      ((L.foldl (backendStep store presign) st).storage_locations.any
        fun p => p.1 = b) = true := by
  intro L
  induction L with
  | nil => intro st b hb; cases hb
  | cons b0 L ih =>
    intro st b hb hok
    rcases List.mem_cons.1 hb with rfl | hb'
    · rcases hok with ⟨l, hl⟩
      have hstep : ((backendStep store presign st b).storage_locations.any
          fun p => p.1 = b) = true := by
        unfold backendStep
        rw [hl]
        exact dictSet_present st.storage_locations b l
      exact ingestLoop_locations_mono store presign L _ b hstep
    · exact ih _ b hb' hok

/-- C7: a failing backend is skipped without aborting the others or
raising; backends whose store call succeeded keep their recorded location
in the response; the overall status is `"failed"` iff the initial content
read raised, and `"completed"` otherwise (even with per-backend
failures). -/
theorem c7_ingestion_per_backend_isolation (read : Except Msg Unit)
    (backends : List StorageBackend)
    (store presign : StorageBackend → Except Msg String) :
    (∀ e, read = .error e →
      (ingest_process_file read backends store presign).1 = "failed") ∧
    (read = .ok () →
      (ingest_process_file read backends store presign).1 = "completed" ∧
      ∀ b ∈ backends, ∀ l, store b = .ok l →
        ((ingest_process_file read backends store
          presign).2.storage_locations.any fun p => p.1 = b) = true) := by
  constructor
  · rintro e rfl
    rfl
  · rintro rfl
    refine ⟨rfl, ?_⟩
    intro b hb l hl
    exact ingestLoop_locations_of_ok store presign backends ⟨[], []⟩ b hb
      ⟨l, hl⟩

/-- C7 witness: `[local, s3]` with s3 unreachable still records the local
location and completes. -/
theorem c7_ingestion_per_backend_isolation_witness :
    (ingest_process_file (.ok ()) [.loc, .s3]
        (fun b => if b = .loc then .ok "./storage/id" else .error "down")
        (fun _ => .error "down")).1 = "completed" ∧
      ((ingest_process_file (.ok ()) [.loc, .s3]
        (fun b => if b = .loc then .ok "./storage/id" else .error "down")
        (fun _ => .error "down")).2.storage_locations.any
          fun p => p.1 = StorageBackend.loc) = true := by
  have h := (c7_ingestion_per_backend_isolation (.ok ()) [.loc, .s3]
    (fun b => if b = .loc then .ok "./storage/id" else .error "down")
    (fun _ => .error "down")).2 rfl
  exact ⟨h.1, h.2 .loc (by decide) "./storage/id" rfl⟩

/-! ## Idempotence of `remove_noise` then `normalize_text` (C6)

The key structural fact: `remove_noise` always outputs a *clean* string —
printable ASCII, no two adjacent whitespace characters, none at either
end — and on clean strings `remove_noise` is the identity while
`normalize_text` is ASCII lower-casing, which preserves cleanliness and is
itself idempotent. -/

def printA (c : Char) : Prop := 0x20 ≤ c.toNat ∧ c.toNat ≤ 0x7E

/-- No two adjacent whitespace characters. -/
def noDoubleWs (a b : Char) : Prop := ¬(isWsA a = true ∧ isWsA b = true)

/-- The shape of `remove_noise` output. -/
def Clean (l : List Char) : Prop :=
  (∀ c ∈ l, printA c) ∧ List.Chain' noDoubleWs l ∧
    (∀ c, l.head? = some c → isWsA c = false) ∧
    (∀ c, l.getLast? = some c → isWsA c = false)

theorem char_eq_iff_toNat {c d : Char} : c = d ↔ c.toNat = d.toNat := by
  constructor
  · rintro rfl; rfl
  · intro h
    have h1 : Char.ofNat c.toNat = Char.ofNat d.toNat := by rw [h]
    rwa [Char.ofNat_toNat, Char.ofNat_toNat] at h1

theorem toNat_ofNat_valid {n : ℕ} (h : n < 55296) :
    (Char.ofNat n).toNat = n := by
  unfold Char.ofNat
  rw [dif_pos (Or.inl h)]
  rfl

/-- `isWsA` in terms of the code point. -/
theorem isWsA_iff_toNat {c : Char} :
    isWsA c = true ↔ (c.toNat = 32 ∨ c.toNat = 9 ∨ c.toNat = 10 ∨
      c.toNat = 13 ∨ c.toNat = 11 ∨ c.toNat = 12) := by
  have h11 : (Char.ofNat 0x0B).toNat = 11 := toNat_ofNat_valid (by omega)
  have h12 : (Char.ofNat 0x0C).toNat = 12 := toNat_ofNat_valid (by omega)
  simp only [isWsA, Bool.or_eq_true, decide_eq_true_eq]
  rw [char_eq_iff_toNat, char_eq_iff_toNat, char_eq_iff_toNat,
    char_eq_iff_toNat, char_eq_iff_toNat, char_eq_iff_toNat, h11, h12,
    show (' ').toNat = 32 from rfl, show ('\t').toNat = 9 from rfl,
    show ('\n').toNat = 10 from rfl, show ('\x0d').toNat = 13 from rfl]
  tauto

theorem ws_printA_eq_space {c : Char} (hw : isWsA c = true) (hp : printA c) :
    c = ' ' := by
  rcases isWsA_iff_toNat.1 hw with h | h | h | h | h | h <;>
    first
      | exact char_eq_iff_toNat.2 (by rw [h]; rfl)
      | exact absurd hp.1 (by rw [h]; norm_num [printA])

theorem keep_not_ws_printA {c : Char} (hk : keepChar c = true)
    (hw : isWsA c = false) : printA c := by
  simp only [keepChar, Bool.or_eq_true, Bool.and_eq_true,
    decide_eq_true_eq] at hk
  rcases hk with ((⟨h1, h2⟩ | h) | h) | h
  · exact ⟨h1, h2⟩
  all_goals
    exact absurd (isWsA_iff_toNat.2 (by rw [char_eq_iff_toNat.1 h]; simp))
      (by rw [hw]; simp)

theorem printA_keep {c : Char} (hp : printA c) : keepChar c = true := by
  simp [keepChar, hp.1, hp.2]

/-! ### `remove_noise` is the identity on clean strings -/

theorem filter_keep_of_printA {l : List Char} (h : ∀ c ∈ l, printA c) :
    l.filter keepChar = l :=
  List.filter_eq_self.mpr fun c hc => printA_keep (h c hc)

theorem collapseWS_id : ∀ (l : List Char) (b : Bool),
    (∀ c ∈ l, printA c) → List.Chain' noDoubleWs l →
    (b = true → ∀ c, l.head? = some c → isWsA c = false) →
    collapseWS b l = l := by
  intro l
  induction l with
  | nil => intro b _ _ _; cases b <;> rfl
  | cons c rest ih =>
    intro b hp hch hh
    have hch' := (List.chain'_cons'.1 hch)
    cases hw : isWsA c with
    | false =>
      simp only [collapseWS, hw, Bool.false_eq_true, if_false]
      exact congrArg (c :: ·) (ih false (fun d hd => hp d (by simp [hd]))
        hch'.2 (by simp))
    | true =>
      cases b with
      | true =>
        have := hh rfl c rfl
        rw [hw] at this
        cases this
      | false =>
        have hc : c = ' ' := ws_printA_eq_space hw (hp c (by simp))
        subst hc
        simp only [collapseWS, hw, if_true]
        refine congrArg (' ' :: ·) (ih true (fun d hd => hp d (by simp [hd]))
          hch'.2 ?_)
        intro _ d hd
        have hpair := hch'.1 d hd
        unfold noDoubleWs at hpair
        cases hwd : isWsA d with
        | false => rfl
        | true => exact absurd ⟨hw, hwd⟩ hpair

theorem dropWhile_head?_not {p : Char → Bool} :
    ∀ (l : List Char) (c : Char), (l.dropWhile p).head? = some c →
      p c = false := by
  intro l
  induction l with
  | nil => intro c h; cases h
  | cons d rest ih =>
    intro c h
    rw [List.dropWhile_cons] at h
    split at h
    · exact ih c h
    · rename_i hne
      cases h
      exact Bool.not_eq_true _ ▸ hne

theorem pyStrip_id {l : List Char}
    (hh : ∀ c, l.head? = some c → isWsA c = false)
    (hl : ∀ c, l.getLast? = some c → isWsA c = false) :
    pyStrip l = l := by
  have h1 : l.dropWhile isWsA = l := by
    cases l with
    | nil => rfl
    | cons c rest =>
      rw [List.dropWhile_cons, if_neg]
      rw [hh c rfl]
      simp
  have h2 : l.reverse.dropWhile isWsA = l.reverse := by
    cases hrev : l.reverse with
    | nil => rfl
    | cons c rest =>
      have hc : l.getLast? = some c := by
        rw [List.getLast?_eq_head?_reverse, hrev]; rfl
      rw [List.dropWhile_cons, if_neg]
      rw [hl c hc]
      simp
  unfold pyStrip
  rw [h1, h2, List.reverse_reverse]

theorem remove_noise_of_clean {l : List Char} (h : Clean l) :
    remove_noise l = l := by
  obtain ⟨hp, hch, hh, hl⟩ := h
  unfold remove_noise
  rw [filter_keep_of_printA hp, collapseWS_id l false hp hch (by simp),
    pyStrip_id hh hl]

/-! ### `remove_noise` always outputs a clean string -/

theorem collapseWS_mem : ∀ (l : List Char) (b : Bool) (c : Char),
    c ∈ collapseWS b l → c = ' ' ∨ (c ∈ l ∧ isWsA c = false) := by
  intro l
  induction l with
  | nil => intro b c h; cases b <;> cases h
  | cons d rest ih =>
    intro b c h
    cases hw : isWsA d with
    | true =>
      cases b with
      | true =>
        simp only [collapseWS, hw, if_true] at h
        rcases ih true c h with h' | ⟨h1, h2⟩
        · exact .inl h'
        · exact .inr ⟨by simp [h1], h2⟩
      | false =>
        simp only [collapseWS, hw, if_true] at h
        rcases List.mem_cons.1 h with rfl | h'
        · exact .inl rfl
        · rcases ih true c h' with h'' | ⟨h1, h2⟩
          · exact .inl h''
          · exact .inr ⟨by simp [h1], h2⟩
    | false =>
      simp only [collapseWS, hw, Bool.false_eq_true, if_false] at h
      rcases List.mem_cons.1 h with rfl | h'
      · exact .inr ⟨by simp, hw⟩
      · rcases ih false c h' with h'' | ⟨h1, h2⟩
        · exact .inl h''
        · exact .inr ⟨by simp [h1], h2⟩

theorem collapseWS_true_head : ∀ (l : List Char) (c : Char),
    (collapseWS true l).head? = some c → isWsA c = false := by
  intro l
  induction l with
  | nil => intro c h; cases h
  | cons d rest ih =>
    intro c h
    cases hw : isWsA d with
    | true =>
      simp only [collapseWS, hw, if_true] at h
      exact ih c h
    | false =>
      simp only [collapseWS, hw, Bool.false_eq_true, if_false,
        List.head?_cons] at h
      cases h
      exact hw

theorem collapseWS_chain' : ∀ (l : List Char) (b : Bool),
    List.Chain' noDoubleWs (collapseWS b l) := by
  intro l
  induction l with
  | nil => intro b; cases b <;> exact List.chain'_nil
  | cons d rest ih =>
    intro b
    cases hw : isWsA d with
    | true =>
      cases b with
      | true => simpa only [collapseWS, hw, if_true] using ih true
      | false =>
        simp only [collapseWS, hw, if_true]
        refine List.chain'_cons'.2 ⟨?_, ih true⟩
        intro c hc
        have := collapseWS_true_head rest c hc
        unfold noDoubleWs
        rw [this]
        simp
    | false =>
      simp only [collapseWS, hw, Bool.false_eq_true, if_false]
      refine List.chain'_cons'.2 ⟨?_, ih false⟩
      intro c _
      unfold noDoubleWs
      rw [hw]
      simp

theorem pyStrip_eq_rdropWhile (l : List Char) :
    pyStrip l = (l.dropWhile isWsA).rdropWhile isWsA := rfl

/-- `pyStrip l` is a contiguous segment of `l`. -/
theorem pyStrip_contig (l : List Char) : pyStrip l <:+: l := by
  have hsfx : l.dropWhile isWsA <:+ l := List.dropWhile_suffix _
  have hpfx : (l.dropWhile isWsA).rdropWhile isWsA <+: l.dropWhile isWsA :=
    List.rdropWhile_prefix _ _
  obtain ⟨s, hs⟩ := hsfx
  obtain ⟨t, ht⟩ := hpfx
  refine ⟨s, t, ?_⟩
  rw [pyStrip_eq_rdropWhile, List.append_assoc, ht, hs]

theorem remove_noise_clean (x : List Char) : Clean (remove_noise x) := by
  classical
  set w := x.filter keepChar with hw
  set m := collapseWS false w with hm
  have hmem : ∀ c ∈ m, printA c := by
    intro c hc
    rcases collapseWS_mem w false c hc with rfl | ⟨h1, h2⟩
    · exact ⟨by decide, by decide⟩
    · exact keep_not_ws_printA (List.of_mem_filter h1) h2
  have hmid : remove_noise x <:+: m := pyStrip_contig m
  have hsub : ∀ c ∈ remove_noise x, c ∈ m := fun c hc =>
    hmid.sublist.subset hc
  refine ⟨fun c hc => hmem c (hsub c hc), ?_, ?_, ?_⟩
  · have hch_d : List.Chain' noDoubleWs (m.dropWhile isWsA) :=
      List.Chain'.suffix (collapseWS_chain' w false)
        (List.dropWhile_suffix _)
    show List.Chain' noDoubleWs ((m.dropWhile isWsA).rdropWhile isWsA)
    exact List.Chain'.prefix hch_d (List.rdropWhile_prefix _ _)
  · intro c hc
    have hpfx : (m.dropWhile isWsA).rdropWhile isWsA <+:
        m.dropWhile isWsA := List.rdropWhile_prefix _ _
    obtain ⟨t, ht⟩ := hpfx
    have hc' : (m.dropWhile isWsA).head? = some c := by
      rw [← ht]
      cases hy : (m.dropWhile isWsA).rdropWhile isWsA with
      | nil =>
        rw [show remove_noise x = (m.dropWhile isWsA).rdropWhile isWsA
          from rfl, hy] at hc
        cases hc
      | cons a ys =>
        rw [show remove_noise x = (m.dropWhile isWsA).rdropWhile isWsA
          from rfl, hy, List.head?_cons] at hc
        cases hc
        rfl
    exact dropWhile_head?_not (m) c hc'
  · intro c hc
    have hne : remove_noise x ≠ [] := by
      intro h0
      rw [h0] at hc
      cases hc
    have hlast := List.rdropWhile_last_not isWsA (m.dropWhile isWsA)
      (by rwa [← pyStrip_eq_rdropWhile])
    have : (remove_noise x).getLast hne = c := by
      have hg := List.getLast?_eq_getLast (remove_noise x) hne
      rw [hg] at hc
      exact Option.some.inj hc
    rw [← this]
    have heq : ((m.dropWhile isWsA).rdropWhile isWsA).getLast
        (by rwa [← pyStrip_eq_rdropWhile]) = (remove_noise x).getLast hne := by
      congr 1
    rw [← heq]
    exact Bool.not_eq_true _ ▸ hlast

/-! ### `normalize_text` on clean strings -/

theorem pyNFKC_of_printA {te : TextEnv} {l : List Char}
    (h : ∀ c ∈ l, printA c) : pyNFKC te l = l := by
  unfold pyNFKC
  rw [if_pos]
  refine List.all_eq_true.2 fun c hc => ?_
  have := (h c hc).2
  simp only [decide_eq_true_eq]
  omega

theorem pyLower_of_printA {te : TextEnv} {l : List Char}
    (h : ∀ c ∈ l, printA c) : pyLower te l = l.map Char.toLower := by
  unfold pyLower
  induction l with
  | nil => rfl
  | cons c rest ih =>
    rw [List.flatMap_cons, List.map_cons,
      ih (fun d hd => h d (by simp [hd]))]
    have hc : pyLowerChar te c = [c.toLower] := by
      unfold pyLowerChar
      rw [if_pos]
      have := (h c (by simp)).2
      omega
    rw [hc]
    rfl

theorem normalize_text_of_printA {te : TextEnv} {l : List Char}
    (h : ∀ c ∈ l, printA c) :
    normalize_text te l = l.map Char.toLower := by
  unfold normalize_text
  rw [pyNFKC_of_printA h, pyLower_of_printA h]

/-- The code point of `Char.toLower`. -/
theorem toLower_toNat {c : Char} :
    (Char.toLower c).toNat =
      if 65 ≤ c.toNat ∧ c.toNat ≤ 90 then c.toNat + 32 else c.toNat := by
  unfold Char.toLower
  split
  · rename_i h
    rw [if_pos ⟨h.1, h.2⟩, toNat_ofNat_valid (by omega)]
  · rename_i h
    rw [if_neg h]

theorem printA_toLower {c : Char} (hp : printA c) : printA c.toLower := by
  have := @toLower_toNat c
  unfold printA at *
  split at this <;> omega

theorem isWsA_toLower {c : Char} (hp : printA c) :
    isWsA c.toLower = isWsA c := by
  have ht := @toLower_toNat c
  by_cases h : 65 ≤ c.toNat ∧ c.toNat ≤ 90
  · rw [if_pos h] at ht
    have h1 : isWsA c.toLower = false := by
      cases hx : isWsA c.toLower with
      | false => rfl
      | true =>
        rcases isWsA_iff_toNat.1 hx with hh | hh | hh | hh | hh | hh <;>
          omega
    have h2 : isWsA c = false := by
      cases hx : isWsA c with
      | false => rfl
      | true =>
        rcases isWsA_iff_toNat.1 hx with hh | hh | hh | hh | hh | hh <;>
          omega
    rw [h1, h2]
  · rw [if_neg h] at ht
    rw [char_eq_iff_toNat.2 ht]

theorem toLower_idem {c : Char} (hp : printA c) :
    Char.toLower c.toLower = c.toLower := by
  have h1 := @toLower_toNat c
  have h2 := @toLower_toNat c.toLower
  by_cases h : 65 ≤ c.toNat ∧ c.toNat ≤ 90
  · rw [if_pos h] at h1
    rw [char_eq_iff_toNat, h2, h1, if_neg (by omega)]
  · rw [if_neg h] at h1
    have hc : c.toLower = c := char_eq_iff_toNat.2 h1
    rw [hc, hc]

theorem chain'_noDoubleWs_map : ∀ (l : List Char),
    (∀ c ∈ l, printA c) → List.Chain' noDoubleWs l →
    List.Chain' noDoubleWs (l.map Char.toLower) := by
  intro l
  induction l with
  | nil => intro _ _; exact List.chain'_nil
  | cons a rest ih =>
    intro hp hch
    have hch' := List.chain'_cons'.1 hch
    rw [List.map_cons]
    refine List.chain'_cons'.2 ⟨?_, ih (fun d hd => hp d (by simp [hd]))
      hch'.2⟩
    intro c hc
    rw [List.head?_map] at hc
    rcases Option.map_eq_some'.1 hc with ⟨d, hd, rfl⟩
    have hpair := hch'.1 d hd
    unfold noDoubleWs at *
    rw [isWsA_toLower (hp a (by simp)),
      isWsA_toLower (hp d (by simp [List.mem_of_mem_head? hd]))]
    exact hpair

theorem clean_map_toLower {l : List Char} (h : Clean l) :
    Clean (l.map Char.toLower) := by
  obtain ⟨hp, hch, hh, hl⟩ := h
  refine ⟨?_, ?_, ?_, ?_⟩
  · intro c hc
    rcases List.mem_map.1 hc with ⟨d, hd, rfl⟩
    exact printA_toLower (hp d hd)
  · exact chain'_noDoubleWs_map l hp hch
  · intro c hc
    rw [List.head?_map] at hc
    rcases Option.map_eq_some'.1 hc with ⟨d, hd, rfl⟩
    rw [isWsA_toLower (hp d (List.mem_of_mem_head? hd))]
    exact hh d hd
  · intro c hc
    rw [List.getLast?_map] at hc
    rcases Option.map_eq_some'.1 hc with ⟨d, hd, rfl⟩
    rw [isWsA_toLower (hp d (List.mem_of_getLast?_eq_some hd))]
    exact hl d hd

/-- C6: the composition of `remove_noise` followed by `normalize_text` is
idempotent: applying it twice yields the same output as applying it once
(for any behaviour of the external NFKC/lower-casing tables on non-ASCII
input, which the composition never reaches). -/
theorem c6_remove_noise_normalize_idempotent (te : TextEnv)
    (text : List Char) :
    normalize_text te (remove_noise (normalize_text te
        (remove_noise text))) =
      normalize_text te (remove_noise text) := by
  have hy : Clean (remove_noise text) := remove_noise_clean text
  have hz0 : normalize_text te (remove_noise text) =
      (remove_noise text).map Char.toLower := normalize_text_of_printA hy.1
  have hz : Clean ((remove_noise text).map Char.toLower) :=
    clean_map_toLower hy
  rw [hz0, remove_noise_of_clean hz, normalize_text_of_printA hz.1,
    List.map_map]
  exact List.map_congr_left fun c hc =>
    toLower_idem (hy.1 c hc)

/-! ## `SequenceMatcher.ratio` of a string with itself is 1 (for C4)

The DP of `find_longest_match` on the self-comparison keeps its running
best on the diagonal: any off-diagonal run has a diagonal counterpart of at
least the same length ending no later in scan order, and the update rule is
strict.  The extension loops then grow a diagonal block to the full string.
`dRun t` is the length of the maximal run of non-popular characters ending
at position `t` — exactly the diagonal run length the DP can see through
`b2j` after the autojunk purge. -/

namespace PyDifflib

/-- Diagonal run length at `t` in the self-comparison of `x`. -/
def dRun (x : List Char) : ℕ → ℕ
  | 0 => if popularCut x (x.getD 0 ' ') then 0 else 1
  | t + 1 => if popularCut x (x.getD (t + 1) ' ') then 0 else dRun x t + 1

theorem dRun_le (x : List Char) : ∀ t, dRun x t ≤ t + 1
  | 0 => by unfold dRun; split <;> omega
  | t + 1 => by
    have := dRun_le x t
    unfold dRun
    split <;> omega

/-- The run length the DP computes for position `j` of `b` in one step,
reading the previous step's map. -/
def kAt (old : ℕ → ℕ) (j : ℕ) : ℕ :=
  (if j = 0 then 0 else old (j - 1)) + 1

theorem flmInner_eq (old : ℕ → ℕ) (n i j : ℕ) (st : (ℕ → ℕ) × FlmBest)
    (hj : j < n) :
    flmInner old 0 n i st j =
      ((fun j' => if j' = j then kAt old j else st.1 j'),
        if st.2.bestsize < kAt old j then
          ⟨i + 1 - kAt old j, j + 1 - kAt old j, kAt old j⟩
        else st.2) := by
  unfold flmInner kAt
  rw [if_pos ⟨Nat.zero_le j, hj⟩]

/-- The best-tracking component of the inner loop. -/
def bstep (old : ℕ → ℕ) (i : ℕ) (b : FlmBest) (j : ℕ) : FlmBest :=
  if b.bestsize < kAt old j then
    ⟨i + 1 - kAt old j, j + 1 - kAt old j, kAt old j⟩
  else b

/-- The inner loop decomposes: the new map records `kAt old` on the
processed positions, and the best evolves by `bstep` (the map writes never
feed back into this step's `k` values, which read the previous map). -/
theorem innerFold_decompose (old : ℕ → ℕ) (n i : ℕ) :
    ∀ (js : List ℕ) (st : (ℕ → ℕ) × FlmBest), (∀ j ∈ js, j < n) →
      js.foldl (flmInner old 0 n i) st =
        ((fun j' => if j' ∈ js then kAt old j' else st.1 j'),
          js.foldl (bstep old i) st.2) := by
  intro js
  induction js with
  | nil =>
    intro st _
    simp only [List.foldl_nil, List.not_mem_nil, if_false]
  | cons j js ih =>
    intro st hjs
    rw [List.foldl_cons, List.foldl_cons,
      flmInner_eq old n i j st (hjs j (by simp)),
      ih _ (fun j' hj' => hjs j' (by simp [hj']))]
    refine congrArg (fun f => (f, _)) ?_
    funext j'
    by_cases h1 : j' ∈ js
    · simp [h1]
    · by_cases h2 : j' = j
      · simp [h1, h2]
      · simp [h1, h2]

theorem bfold_no_update (old : ℕ → ℕ) (i : ℕ) :
    ∀ (js : List ℕ) (b : FlmBest), (∀ j ∈ js, kAt old j ≤ b.bestsize) →
      js.foldl (bstep old i) b = b := by
  intro js
  induction js with
  | nil => intro b _; rfl
  | cons j js ih =>
    intro b h
    rw [List.foldl_cons]
    have hb : bstep old i b j = b := by
      unfold bstep
      rw [if_neg (by have := h j (by simp); omega)]
    rw [hb]
    exact ih b fun j' hj' => h j' (by simp [hj'])

/-- The DP invariant for the self-comparison, after `t` outer steps. -/
structure FlmInv (x : List Char) (t : ℕ) (st : (ℕ → ℕ) × FlmBest) :
    Prop where
  diag : st.2.besti = st.2.bestj
  inBound : st.2.bestj + st.2.bestsize ≤ x.length
  bestBig : ∀ s, s < t → dRun x s ≤ st.2.bestsize
  mapLe : ∀ j, st.1 j ≤ min (dRun x j) (dRun x (t - 1))
  mapZero : t = 0 → ∀ j, st.1 j = 0
  mapDiag : 1 ≤ t → st.1 (t - 1) = dRun x (t - 1)

theorem dRun_pop {x : List Char} {t : ℕ}
    (h : popularCut x (x.getD t ' ') = true) : dRun x t = 0 := by
  cases t <;> · unfold dRun; rw [if_pos h]

theorem dRun_nonpop_zero {x : List Char}
    (h : popularCut x (x.getD 0 ' ') = false) : dRun x 0 = 1 := by
  unfold dRun
  rw [if_neg (by rw [h]; exact Bool.false_ne_true)]

theorem dRun_nonpop_succ {x : List Char} {t : ℕ}
    (h : popularCut x (x.getD (t + 1) ' ') = false) :
    dRun x (t + 1) = dRun x t + 1 := by
  have he : dRun x (t + 1) = if popularCut x (x.getD (t + 1) ' ') = true
      then 0 else dRun x t + 1 := rfl
  rw [he, if_neg (by rw [h]; exact Bool.false_ne_true)]

theorem dRun_pos_of_nonpop {x : List Char} {t : ℕ}
    (h : popularCut x (x.getD t ' ') = false) : 1 ≤ dRun x t := by
  cases t with
  | zero => rw [dRun_nonpop_zero h]
  | succ t' => rw [dRun_nonpop_succ h]; omega

theorem dRun_pred_succ {x : List Char} {j : ℕ} (hj : 1 ≤ j)
    (h : popularCut x (x.getD j ' ') = false) :
    dRun x j = dRun x (j - 1) + 1 := by
  cases j with
  | zero => omega
  | succ j' => rw [dRun_nonpop_succ h]; simp

theorem mem_positions {x : List Char} {c : Char} {j : ℕ} :
    j ∈ positions x c ↔ j < x.length ∧ x.getD j ' ' = c := by
  unfold positions
  rw [List.mem_filter, List.mem_range]
  simp

theorem b2j_of_pop {x : List Char} {c : Char}
    (h : popularCut x c = true) : b2j x c = [] := by
  unfold b2j
  rw [if_pos h]

theorem b2j_of_nonpop {x : List Char} {c : Char}
    (h : popularCut x c = false) : b2j x c = positions x c := by
  unfold b2j
  rw [h]
  simp

theorem positions_split (x : List Char) (t : ℕ) (ht : t < x.length) :
    positions x (x.getD t ' ') =
      ((List.range t).filter fun j =>
          decide (x.getD j ' ' = x.getD t ' ')) ++
        t :: ((List.range' (t + 1) (x.length - (t + 1))).filter fun j =>
          decide (x.getD j ' ' = x.getD t ' ')) := by
  have h2 : List.range' t (x.length - t) =
      t :: List.range' (t + 1) (x.length - (t + 1)) := by
    rw [show x.length - t = (x.length - (t + 1)) + 1 from by omega,
      List.range'_succ]
  have hsplit : List.range x.length =
      List.range t ++ (t :: List.range' (t + 1) (x.length - (t + 1))) := by
    rw [← h2, List.range_eq_range', List.range_eq_range']
    have h3 := List.range'_append_1 0 t (x.length - t)
    rw [Nat.zero_add] at h3
    rw [h3]
    congr 1
    omega
  unfold positions
  rw [hsplit, List.filter_append, List.filter_cons, if_pos (by simp)]

/-- One outer DP step preserves the self-comparison invariant. -/
theorem flmStep_inv (x : List Char) (t : ℕ) (ht : t < x.length)
    (st : (ℕ → ℕ) × FlmBest) (h : FlmInv x t st) :
    FlmInv x (t + 1) (flmStep x x 0 x.length st t) := by
  unfold flmStep
  cases hpop : popularCut x (x.getD t ' ') with
  | true =>
    rw [b2j_of_pop hpop, List.foldl_nil]
    exact ⟨h.diag, h.inBound,
      fun s hs => by
        rcases Nat.lt_succ_iff_lt_or_eq.1 hs with hs' | rfl
        · exact h.bestBig s hs'
        · rw [dRun_pop hpop]; omega,
      fun j => Nat.zero_le _,
      fun h0 => absurd h0 (Nat.succ_ne_zero t),
      fun _ => by
        show (0 : ℕ) = dRun x (t + 1 - 1)
        rw [Nat.add_sub_cancel, dRun_pop hpop]⟩
  | false =>
    rw [b2j_of_nonpop hpop, positions_split x t ht]
    set A := (List.range t).filter
      (fun j => decide (x.getD j ' ' = x.getD t ' ')) with hA
    set B := (List.range' (t + 1) (x.length - (t + 1))).filter
      (fun j => decide (x.getD j ' ' = x.getD t ' ')) with hB
    have hmemA : ∀ j ∈ A, j < t ∧ x.getD j ' ' = x.getD t ' ' := by
      intro j hj
      rw [hA, List.mem_filter, List.mem_range] at hj
      exact ⟨hj.1, by simpa using hj.2⟩
    have hmemB : ∀ j ∈ B, t + 1 ≤ j ∧ j < x.length ∧
        x.getD j ' ' = x.getD t ' ' := by
      intro j hj
      rw [hB, List.mem_filter, List.mem_range'] at hj
      obtain ⟨⟨i, hi, rfl⟩, hp⟩ := hj
      exact ⟨by omega, by omega, by simpa using hp⟩
    have hlt : ∀ j ∈ A ++ t :: B, j < x.length := by
      intro j hj
      rcases List.mem_append.1 hj with hj | hj
      · exact lt_trans (hmemA j hj).1 ht
      · rcases List.mem_cons.1 hj with rfl | hj
        · exact ht
        · exact (hmemB j hj).2.1
    rw [innerFold_decompose st.1 x.length t (A ++ t :: B)
      ((fun _ => 0), st.2) hlt]
    -- the k value of every position left of the diagonal is bounded by its
    -- own diagonal run, which the best already dominates
    have hkA : ∀ j ∈ A, kAt st.1 j ≤ dRun x j ∧ kAt st.1 j ≤ dRun x t := by
      intro j hj
      obtain ⟨hjt, hjc⟩ := hmemA j hj
      have hnpj : popularCut x (x.getD j ' ') = false := by rw [hjc]; exact hpop
      cases j with
      | zero =>
        have hk1 : kAt st.1 0 = 1 := by simp [kAt]
        exact ⟨by rw [hk1, dRun_nonpop_zero hnpj],
          by rw [hk1]; exact dRun_pos_of_nonpop hpop⟩
      | succ j' =>
        have hk : kAt st.1 (j' + 1) = st.1 j' + 1 := by simp [kAt]
        have h1a := le_trans (h.mapLe j') (min_le_left _ _)
        have h1b := le_trans (h.mapLe j') (min_le_right _ _)
        have hdj : dRun x (j' + 1) = dRun x j' + 1 := dRun_nonpop_succ hnpj
        have ht1 : dRun x t = dRun x (t - 1) + 1 :=
          dRun_pred_succ (by omega) hpop
        exact ⟨by rw [hk, hdj]; omega, by rw [hk, ht1]; omega⟩
    have hnoA : A.foldl (bstep st.1 t) st.2 = st.2 := by
      refine bfold_no_update st.1 t A st.2 fun j hj => ?_
      exact le_trans (hkA j hj).1
        (h.bestBig j (lt_of_lt_of_le (hmemA j hj).1 (le_refl t)))
    have hkt : kAt st.1 t = dRun x t := by
      cases t with
      | zero =>
        have : kAt st.1 0 = 1 := by simp [kAt]
        rw [this, dRun_nonpop_zero hpop]
      | succ t' =>
        have hk : kAt st.1 (t' + 1) = st.1 t' + 1 := by simp [kAt]
        rw [hk, dRun_nonpop_succ hpop,
          show st.1 t' = dRun x t' from by
            have := h.mapDiag (by omega)
            simpa using this]
    -- after the diagonal position is processed the best dominates `dRun t`
    set b1 := bstep st.1 t st.2 t with hb1
    have hb1p : b1.besti = b1.bestj ∧ b1.bestj + b1.bestsize ≤ x.length ∧
        dRun x t ≤ b1.bestsize ∧ st.2.bestsize ≤ b1.bestsize := by
      rw [hb1]
      unfold bstep
      rw [hkt]
      split
      · rename_i hlt'
        refine ⟨rfl, ?_, le_refl _, le_of_lt hlt'⟩
        show t + 1 - dRun x t + dRun x t ≤ x.length
        have := dRun_le x t
        omega
      · rename_i hge
        exact ⟨h.diag, h.inBound, by omega, le_refl _⟩
    have hkB : ∀ j ∈ B, kAt st.1 j ≤ dRun x j ∧ kAt st.1 j ≤ dRun x t := by
      intro j hj
      obtain ⟨hjt, hjn, hjc⟩ := hmemB j hj
      have hnpj : popularCut x (x.getD j ' ') = false := by rw [hjc]; exact hpop
      have hj0 : j ≠ 0 := by omega
      have hk : kAt st.1 j = st.1 (j - 1) + 1 := by simp [kAt, hj0]
      have h1a := le_trans (h.mapLe (j - 1)) (min_le_left _ _)
      have h1b := le_trans (h.mapLe (j - 1)) (min_le_right _ _)
      have hdj : dRun x j = dRun x (j - 1) + 1 :=
        dRun_pred_succ (by omega) hnpj
      constructor
      · rw [hk, hdj]
        omega
      · rw [hk]
        rcases Nat.eq_zero_or_pos t with rfl | htpos'
        · have h0 := h.mapZero rfl (j - 1)
          rw [h0, dRun_nonpop_zero hpop]
        · have ht1 : dRun x t = dRun x (t - 1) + 1 :=
            dRun_pred_succ htpos' hpop
          omega
    have hnoB : B.foldl (bstep st.1 t) b1 = b1 := by
      refine bfold_no_update st.1 t B b1 fun j hj => ?_
      exact le_trans (hkB j hj).2 hb1p.2.2.1
    rw [List.foldl_append, List.foldl_cons, hnoA, ← hb1, hnoB]
    refine ⟨hb1p.1, hb1p.2.1, ?_, ?_, ?_, ?_⟩
    · intro s hs
      rcases Nat.lt_succ_iff_lt_or_eq.1 hs with hs' | rfl
      · exact le_trans (h.bestBig s hs') hb1p.2.2.2
      · exact hb1p.2.2.1
    · intro j
      show (if j ∈ A ++ t :: B then kAt st.1 j else 0) ≤
        min (dRun x j) (dRun x (t + 1 - 1))
      rw [Nat.add_sub_cancel]
      split
      · rename_i hj
        rcases List.mem_append.1 hj with hj | hj
        · exact le_min (hkA j hj).1 (hkA j hj).2
        · rcases List.mem_cons.1 hj with rfl | hj
          · rw [hkt]; exact le_min (le_refl _) (le_refl _)
          · exact le_min (hkB j hj).1 (hkB j hj).2
      · omega
    · exact fun h0 => absurd h0 (Nat.succ_ne_zero t)
    · intro _
      show (if t ∈ A ++ t :: B then kAt st.1 t else 0) = dRun x (t + 1 - 1)
      rw [Nat.add_sub_cancel, if_pos (by simp), hkt]

/-- The invariant holds after any number of outer steps. -/
theorem flmDP_inv_upto (x : List Char) : ∀ t, t ≤ x.length →
    FlmInv x t ((List.range' 0 t).foldl (flmStep x x 0 x.length)
      ((fun _ => 0), ⟨0, 0, 0⟩)) := by
  intro t
  induction t with
  | zero =>
    intro _
    exact ⟨rfl, Nat.zero_le _, fun s hs => absurd hs (by omega),
      fun j => Nat.zero_le _, fun _ j => rfl,
      fun h1 => absurd h1 (by omega)⟩
  | succ t ih =>
    intro ht
    have hr : List.range' 0 (t + 1) = List.range' 0 t ++ [t] := by
      simpa using @List.range'_concat 1 0 t
    rw [hr, List.foldl_append, List.foldl_cons, List.foldl_nil]
    exact flmStep_inv x t (by omega) _ (ih (by omega))

theorem extendL_self (x : List Char) : ∀ (d k : ℕ),
    extendL x x 0 0 d d k = (0, 0, d + k) := by
  intro d
  induction d with
  | zero => intro k; show (0, (0, k)) = (0, 0, 0 + k); rw [Nat.zero_add]
  | succ d ih =>
    intro k
    have he : extendL x x 0 0 (d + 1) (d + 1) k =
        if 0 ≤ d ∧ 0 ≤ d ∧ x.getD d ' ' = x.getD d ' ' then
          extendL x x 0 0 d d (k + 1)
        else (d + 1, d + 1, k) := rfl
    rw [he, if_pos ⟨Nat.zero_le d, Nat.zero_le d, rfl⟩, ih (k + 1),
      show d + (k + 1) = (d + 1) + k from by omega]

theorem extendR_self (x : List Char) (n : ℕ) : ∀ (fuel k : ℕ),
    fuel = n - k → k ≤ n → extendR x x n 0 0 fuel k = n := by
  intro fuel
  induction fuel with
  | zero =>
    intro k h1 h2
    show k = n
    omega
  | succ fuel ih =>
    intro k h1 h2
    have he : extendR x x n 0 0 (fuel + 1) k =
        if 0 + k < n ∧ x.getD (0 + k) ' ' = x.getD (0 + k) ' ' then
          extendR x x n 0 0 fuel (k + 1)
        else k := rfl
    rw [he, if_pos ⟨by omega, rfl⟩, ih (k + 1) (by omega) (by omega)]

/-- `find_longest_match` on the self-comparison returns the whole string:
the DP's best is diagonal, and the extension loops stretch a diagonal block
to the full window. -/
theorem findLongestMatch_self (x : List Char) :
    findLongestMatch x x 0 x.length 0 x.length = (0, 0, x.length) := by
  have hdp : flmDP x x 0 x.length 0 x.length =
      ((List.range' 0 x.length).foldl (flmStep x x 0 x.length)
        ((fun _ => 0), ⟨0, 0, 0⟩)).2 := by
    unfold flmDP
    rw [Nat.sub_zero]
  have hinv := flmDP_inv_upto x x.length (le_refl _)
  obtain ⟨bi, bj, bs, hbb⟩ : ∃ bi bj bs,
      flmDP x x 0 x.length 0 x.length = ⟨bi, bj, bs⟩ := ⟨_, _, _, rfl⟩
  have hd : bi = bj := by
    have h1 := hinv.diag
    rw [← hdp, hbb] at h1
    exact h1
  have hb : bj + bs ≤ x.length := by
    have h1 := hinv.inBound
    rw [← hdp, hbb] at h1
    exact h1
  subst hd
  unfold findLongestMatch
  rw [hbb]
  show (let e := extendL x x 0 0 bi bi bs
    (e.1, e.2.1, extendR x x x.length e.1 e.2.1
      (x.length - (e.1 + e.2.2)) e.2.2)) = (0, 0, x.length)
  rw [extendL_self x bi bs]
  show (0, 0, extendR x x x.length 0 0 (x.length - (0 + (bi + bs)))
    (bi + bs)) = (0, 0, x.length)
  rw [Nat.zero_add, extendR_self x x.length _ _ rfl hb]

theorem matchesSum_self (x : List Char) (fuel : ℕ) :
    matchesSum x x (fuel + 1) 0 x.length 0 x.length = x.length := by
  have he : matchesSum x x (fuel + 1) 0 x.length 0 x.length =
      (let m := findLongestMatch x x 0 x.length 0 x.length
      if m.2.2 = 0 then 0
      else m.2.2 + (if 0 < m.1 ∧ 0 < m.2.1 then
          matchesSum x x fuel 0 m.1 0 m.2.1 else 0)
        + (if m.1 + m.2.2 < x.length ∧ m.2.1 + m.2.2 < x.length then
          matchesSum x x fuel (m.1 + m.2.2) x.length
            (m.2.1 + m.2.2) x.length else 0)) := rfl
  rw [he, findLongestMatch_self x]
  cases hn : x.length with
  | zero => rfl
  | succ m =>
    show (if (m + 1 = 0) then 0 else _) = m + 1
    rw [if_neg (Nat.succ_ne_zero m)]
    show m + 1 + (if 0 < 0 ∧ 0 < 0 then _ else 0)
      + (if 0 + (m + 1) < m + 1 ∧ 0 + (m + 1) < m + 1 then _ else 0) = m + 1
    rw [if_neg (by omega), if_neg (by omega)]

/-- `SequenceMatcher(None, x, x).ratio()` is exactly 1. -/
theorem pyRatio_self (x : List Char) : pyRatio x x = 1 := by
  unfold pyRatio
  rw [matchesSum_self x (x.length + x.length)]
  by_cases hn : x.length + x.length = 0
  · rw [if_pos hn]
  · rw [if_neg hn, Rat.mkRat_eq_div]
    have hL : ((x.length + x.length : ℕ) : ℚ) ≠ 0 :=
      Nat.cast_ne_zero.2 hn
    rw [show ((2 * x.length : ℤ) : ℚ) = ((x.length + x.length : ℕ) : ℚ)
      from by push_cast; ring]
    exact div_self hL

end PyDifflib

/-! ## Characterization of `detect_duplicates` (C4) -/

/-- The entry the inner loop body appends for the pair `(i, j)`, if any. -/
def ddEntry (minSim : ℚ) (lines : List (List Char)) (i j : ℕ) :
    Option (String × ℚ) :=
  if minSim < PyDifflib.pyRatio (lines.getD i []) (lines.getD j []) then
    some (lineLabel (i + 1) (j + 1),
      PyDifflib.pyRatio (lines.getD i []) (lines.getD j []))
  else none

theorem foldl_if_append {β : Type} (p : ℕ → Prop) [DecidablePred p]
    (e : ℕ → β) :
    ∀ (js : List ℕ) (acc : List β),
      js.foldl (fun a j => if p j then a ++ [e j] else a) acc =
        acc ++ js.filterMap (fun j => if p j then some (e j) else none) := by
  intro js
  induction js with
  | nil => intro acc; simp
  | cons j js ih =>
    intro acc
    rw [List.foldl_cons, List.filterMap_cons]
    by_cases hp : p j
    · rw [if_pos hp, if_pos hp, ih, List.append_assoc,
        List.singleton_append]
    · rw [if_neg hp, if_neg hp, ih]

theorem dd_outer (minSim : ℚ) (lines : List (List Char)) :
    ∀ (is : List ℕ) (acc : List (String × ℚ)),
      is.foldl (fun acc i =>
        (List.range' (i + 1) (lines.length - (i + 1))).foldl (fun acc2 j =>
          if minSim < PyDifflib.pyRatio (lines.getD i [])
              (lines.getD j []) then
            acc2 ++ [(lineLabel (i + 1) (j + 1),
              PyDifflib.pyRatio (lines.getD i []) (lines.getD j []))]
          else acc2) acc) acc =
      acc ++ is.flatMap (fun i =>
        (List.range' (i + 1) (lines.length - (i + 1))).filterMap
          (ddEntry minSim lines i)) := by
  intro is
  induction is with
  | nil => intro acc; simp
  | cons i is ih =>
    intro acc
    rw [List.foldl_cons, List.flatMap_cons]
    rw [show ((List.range' (i + 1) (lines.length - (i + 1))).foldl
        (fun acc2 j =>
          if minSim < PyDifflib.pyRatio (lines.getD i [])
              (lines.getD j []) then
            acc2 ++ [(lineLabel (i + 1) (j + 1),
              PyDifflib.pyRatio (lines.getD i []) (lines.getD j []))]
          else acc2) acc) =
        acc ++ (List.range' (i + 1) (lines.length - (i + 1))).filterMap
          (ddEntry minSim lines i) from
      foldl_if_append _ _ _ acc, ih, List.append_assoc]

/-- `detect_duplicates` lists exactly the above-threshold later-line
pairs, in loop order. -/
theorem detect_duplicates_eq (minSim : ℚ) (text : List Char) :
    detect_duplicates minSim text =
      (List.range (text.splitOn '\n').length).flatMap fun i =>
        (List.range' (i + 1) ((text.splitOn '\n').length - (i + 1))).filterMap
          (ddEntry minSim (text.splitOn '\n') i) := by
  unfold detect_duplicates
  rw [dd_outer]
  rfl

/-- Membership in the `detect_duplicates` map. -/
theorem detect_duplicates_mem (minSim : ℚ) (text : List Char)
    (q : String × ℚ) :
    q ∈ detect_duplicates minSim text ↔
      ∃ i j, i < j ∧ j < (text.splitOn '\n').length ∧
        minSim < PyDifflib.pyRatio ((text.splitOn '\n').getD i [])
          ((text.splitOn '\n').getD j []) ∧
        q = (lineLabel (i + 1) (j + 1),
          PyDifflib.pyRatio ((text.splitOn '\n').getD i [])
            ((text.splitOn '\n').getD j [])) := by
  rw [detect_duplicates_eq]
  rw [List.mem_flatMap]
  constructor
  · rintro ⟨i, hi, hq⟩
    rw [List.mem_filterMap] at hq
    obtain ⟨j, hj, hent⟩ := hq
    rw [List.mem_range'] at hj
    obtain ⟨d, hd, rfl⟩ := hj
    rw [List.mem_range] at hi
    unfold ddEntry at hent
    split at hent
    · rename_i hr
      refine ⟨i, i + 1 + 1 * d, by omega, by omega, hr, ?_⟩
      cases hent
      rfl
    · cases hent
  · rintro ⟨i, j, hij, hj, hr, rfl⟩
    refine ⟨i, List.mem_range.2 (by omega), ?_⟩
    rw [List.mem_filterMap]
    refine ⟨j, List.mem_range'.2 ⟨j - (i + 1), by omega, by omega⟩, ?_⟩
    unfold ddEntry
    rw [if_pos hr]

/-- C4 (amended): `detect_duplicates` reports exactly the pairs of lines
at distinct 1-indexed positions `i < j` whose `SequenceMatcher` ratio is
*strictly above* the threshold, keyed `"line_i-j"` (not `"line_i-line_j"`);
identical lines at distinct positions are always reported with ratio 1.0
(for any threshold below 1, in particular the default 0.9). -/
theorem c4_detect_duplicates_pairs (minSim : ℚ) (text : List Char) :
    (∀ q : String × ℚ, q ∈ detect_duplicates minSim text ↔
      ∃ i j, i < j ∧ j < (text.splitOn '\n').length ∧
        minSim < PyDifflib.pyRatio ((text.splitOn '\n').getD i [])
          ((text.splitOn '\n').getD j []) ∧
        q = (lineLabel (i + 1) (j + 1),
          PyDifflib.pyRatio ((text.splitOn '\n').getD i [])
            ((text.splitOn '\n').getD j []))) ∧
    (minSim < 1 → ∀ i j, i < j → j < (text.splitOn '\n').length →
      (text.splitOn '\n').getD i [] = (text.splitOn '\n').getD j [] →
      (lineLabel (i + 1) (j + 1), (1 : ℚ)) ∈
        detect_duplicates minSim text) := by
  refine ⟨detect_duplicates_mem minSim text, ?_⟩
  intro hσ i j hij hj heq
  rw [detect_duplicates_mem]
  refine ⟨i, j, hij, hj, ?_, ?_⟩
  · rw [heq, PyDifflib.pyRatio_self]
    exact hσ
  · rw [heq, PyDifflib.pyRatio_self]

/-- C4 (amended) witness: the two identical lines of `"a\na"` are reported
as `"line_1-2" ↦ 1.0` at the default threshold 0.9. -/
theorem c4_detect_duplicates_pairs_witness :
    (lineLabel 1 2, (1 : ℚ)) ∈
      detect_duplicates (mkRat 9 10) ['a', '\n', 'a'] :=
  (c4_detect_duplicates_pairs (mkRat 9 10) ['a', '\n', 'a']).2 (by decide)
    0 1 (by decide) (by decide) (by decide)

/-- C4 counterexample: on `"a\na"` the reported key is `"line_1-2"`, not
`"line_1-line_2"` as the claimed exact label format states; and a pair
whose ratio is exactly the 0.9 threshold ("at" the threshold) is *not*
reported, because the code compares strictly. -/
theorem c4_counterexample :
    detect_duplicates (mkRat 9 10) ['a', '\n', 'a'] =
        [("line_1-2", 1)] ∧
      (∀ r : ℚ, (("line_1-line_2" : String), r) ∉
        detect_duplicates (mkRat 9 10) ['a', '\n', 'a']) ∧
      PyDifflib.pyRatio "abcdefghij".toList "abcdefghiX".toList =
        mkRat 9 10 ∧
      detect_duplicates (mkRat 9 10) "abcdefghij\nabcdefghiX".toList =
        [] := by
  refine ⟨by decide, ?_, by decide, by decide⟩
  intro r hr
  have h1 : detect_duplicates (mkRat 9 10) ['a', '\n', 'a'] =
      [("line_1-2", 1)] := by decide
  rw [h1, List.mem_singleton, Prod.mk.injEq] at hr
  exact absurd hr.1 (by decide)

/-! ## Quality-score bounds (C5) -/

theorem collapseWS_length_le : ∀ (b : Bool) (l : List Char),
    (collapseWS b l).length ≤ l.length := by
  intro b l
  induction l generalizing b with
  | nil => cases b <;> exact le_refl _
  | cons c rest ih =>
    by_cases hw : isWsA c = true
    · cases b with
      | true =>
        simp only [collapseWS, hw, if_true, List.length_cons]
        exact le_trans (ih true) (by omega)
      | false =>
        simp only [collapseWS, hw, if_true, Bool.false_eq_true, if_false,
          List.length_cons]
        have := ih true
        omega
    · rw [Bool.not_eq_true] at hw
      simp only [collapseWS, hw, Bool.false_eq_true, if_false,
        List.length_cons]
      have := ih false
      omega

theorem dropWhile_length_le (p : Char → Bool) (l : List Char) :
    (l.dropWhile p).length ≤ l.length :=
  (List.dropWhile_suffix p).sublist.length_le

theorem pyStrip_length_le (l : List Char) : (pyStrip l).length ≤ l.length := by
  unfold pyStrip
  rw [List.length_reverse]
  refine le_trans (dropWhile_length_le _ _) ?_
  rw [List.length_reverse]
  exact dropWhile_length_le _ _

theorem remove_noise_length_le (text : List Char) :
    (remove_noise text).length ≤ text.length := by
  unfold remove_noise
  exact le_trans (pyStrip_length_le _)
    (le_trans (collapseWS_length_le _ _) (List.length_filter_le _ _))

/-- C5 (amended): on empty input all scores are 0; on non-empty input the
`noise` and `structure` sub-scores lie in `[0, 1]`, `encoding` and
`duplicates` are at most 1 but *not* bounded below in general —
`duplicates` drops below 0 as soon as the number of duplicate pairs exceeds
the line count, and `encoding` drops below 0 if the external encoding fixer
changes the length by more than the input length — `overall` is the
unweighted mean of the four, and each sub-score equals the spec's
formula. -/
theorem c5_assess_quality_scores (te : TextEnv) (minSim : ℚ)
    (text : List Char) :
    (text = [] → assess_quality te minSim text = ⟨0, 0, 0, 0, 0⟩) ∧
    (text ≠ [] →
      (0 ≤ (assess_quality te minSim text).noise ∧
        (assess_quality te minSim text).noise ≤ 1) ∧
      (0 ≤ (assess_quality te minSim text).struct ∧
        (assess_quality te minSim text).struct ≤ 1) ∧
      (assess_quality te minSim text).encoding ≤ 1 ∧
      (assess_quality te minSim text).duplicates ≤ 1 ∧
      ((((fix_encoding te text).length : ℤ) - (text.length : ℤ)).natAbs ≤
          text.length →
        0 ≤ (assess_quality te minSim text).encoding) ∧
      ((detect_duplicates minSim text).length ≤
          (text.splitOn '\n').length →
        0 ≤ (assess_quality te minSim text).duplicates) ∧
      (assess_quality te minSim text).overall =
        ((assess_quality te minSim text).encoding +
          (assess_quality te minSim text).noise +
          (assess_quality te minSim text).duplicates +
          (assess_quality te minSim text).struct) / 4 ∧
      (assess_quality te minSim text).encoding =
        1 - (((((fix_encoding te text).length : ℤ) -
          (text.length : ℤ)).natAbs : ℚ) / ((max text.length 1 : ℕ) : ℚ)) ∧
      (assess_quality te minSim text).noise =
        ((remove_noise text).length : ℚ) / ((max text.length 1 : ℕ) : ℚ) ∧
      (assess_quality te minSim text).duplicates =
        1 - ((detect_duplicates minSim text).length : ℚ) /
          ((max (text.splitOn '\n').length 1 : ℕ) : ℚ) ∧
      (assess_quality te minSim text).struct =
        min 1 ((pyWordCount text : ℚ) /
          ((max (text.splitOn '\n').length 1 : ℕ) : ℚ) / 10)) := by
  constructor
  · rintro rfl
    rfl
  · intro h
    have hne : text.isEmpty = false := by
      cases text with
      | nil => exact absurd rfl h
      | cons c l => rfl
    have hpos : (0 : ℚ) < ((max text.length 1 : ℕ) : ℚ) := by
      have : (1 : ℕ) ≤ max text.length 1 := le_max_right _ _
      exact_mod_cast lt_of_lt_of_le Nat.zero_lt_one this
    have hpos2 : (0 : ℚ) < ((max (text.splitOn '\n').length 1 : ℕ) : ℚ) := by
      have : (1 : ℕ) ≤ max (text.splitOn '\n').length 1 := le_max_right _ _
      exact_mod_cast lt_of_lt_of_le Nat.zero_lt_one this
    simp only [assess_quality, hne, Bool.false_eq_true, if_false]
    refine ⟨⟨by positivity, ?_⟩, ⟨?_, min_le_left _ _⟩, ?_, ?_, ?_, ?_,
      by trivial, by trivial, by trivial, by trivial, by trivial⟩
    · rw [div_le_one hpos]
      have h1 := remove_noise_length_le text
      have h2 : text.length ≤ max text.length 1 := le_max_left _ _
      exact_mod_cast le_trans h1 h2
    · exact le_min (by norm_num) (by positivity)
    · have h0 : (0 : ℚ) ≤ (((((fix_encoding te text).length : ℤ) -
          (text.length : ℤ)).natAbs : ℕ) : ℚ) /
          ((max text.length 1 : ℕ) : ℚ) := by positivity
      linarith
    · have h0 : (0 : ℚ) ≤ ((detect_duplicates minSim text).length : ℚ) /
          ((max (text.splitOn '\n').length 1 : ℕ) : ℚ) := by positivity
      linarith
    · intro hfix
      have h1 : ((((fix_encoding te text).length : ℤ) -
          (text.length : ℤ)).natAbs : ℚ) ≤ ((max text.length 1 : ℕ) : ℚ) := by
        have h2 : (((fix_encoding te text).length : ℤ) -
            (text.length : ℤ)).natAbs ≤ max text.length 1 :=
          le_trans hfix (le_max_left _ _)
        exact_mod_cast h2
      have h3 := (div_le_one hpos).2 h1
      linarith
    · intro hdup
      have h1 : ((detect_duplicates minSim text).length : ℚ) ≤
          ((max (text.splitOn '\n').length 1 : ℕ) : ℚ) := by
        have h2 : (detect_duplicates minSim text).length ≤
            max (text.splitOn '\n').length 1 :=
          le_trans hdup (le_max_left _ _)
        exact_mod_cast h2
      have h3 := (div_le_one hpos2).2 h1
      linarith

/-- C5 (amended) witness. -/
theorem c5_assess_quality_scores_witness :
    0 ≤ (assess_quality ⟨fun l => l, fun l => l, fun c => [c]⟩
        (mkRat 9 10) ['a']).noise ∧
      (assess_quality ⟨fun l => l, fun l => l, fun c => [c]⟩
        (mkRat 9 10) ['a']).noise ≤ 1 :=
  ((c5_assess_quality_scores ⟨fun l => l, fun l => l, fun c => [c]⟩
    (mkRat 9 10) ['a']).2 (by decide)).1

/-- C5 counterexample: the `duplicates` sub-score of `"a\na\na\na"` is
`1 - 6/4 < 0` (six duplicate pairs, four lines), and an encoding fixer that
grows a 1-character input to 3 characters sends `encoding` to `-1`; so not
every sub-score lies in `[0, 1]`. -/
theorem c5_counterexample :
    (assess_quality ⟨fun l => l, fun l => l, fun c => [c]⟩ (mkRat 9 10)
        ['a', '\n', 'a', '\n', 'a', '\n', 'a']).duplicates < 0 ∧
      (assess_quality ⟨fun _ => ['a', 'a', 'a'], fun l => l, fun c => [c]⟩
        (mkRat 9 10) ['a']).encoding < 0 := by
  constructor
  · have hdd : (detect_duplicates (mkRat 9 10)
        ['a', '\n', 'a', '\n', 'a', '\n', 'a']).length = 6 := by decide
    have hln : ((['a', '\n', 'a', '\n', 'a', '\n', 'a'] : List Char).splitOn
        '\n').length = 4 := by decide
    have hne : (['a', '\n', 'a', '\n', 'a', '\n', 'a'] :
        List Char).isEmpty = false := rfl
    simp only [assess_quality, hne, Bool.false_eq_true, if_false]
    rw [hdd, hln]
    norm_num
  · have hne : (['a'] : List Char).isEmpty = false := rfl
    simp only [assess_quality, hne, Bool.false_eq_true, if_false]
    norm_num
    decide

end Filemanager
